import Mathlib

/-!
Verification of cuML's forest-inference (FIL) and decision-tree trainer
kernels against their natural-language specification.

Shallow embedding conventions:
* machine integers (`int`, `IdxT`) become `Int` / `Nat`;
* `uint32_t` arithmetic is `Nat` with explicit `% 2^32`;
* finite floats are modelled by their rank in the total order of finite
  floats (an order embedding into `Int` / `Rat`): the code under study
  compares floats and takes `nextafterf(x, -inf)` (the order predecessor),
  both of which factor through this order embedding;
* device arrays become functions `Nat → α` updated pointwise;
* code that only exists outside the given sources is modelled from the
  spec and marked as such in its doc comment.
-/

namespace CumlDT

/-- The `Split` record as used by `SplitNotValid` and `partitionSamples`
(fields `best_metric_val`, `nLeft`, `colid`, `quesval` of
`ML::DT::Split<DataT, IdxT>`). `quesval` is the float threshold's rank. -/
structure Split where
  quesval : Int
  colid : Nat
  best_metric_val : Rat
  nLeft : Int

/-- Embeds `ML::DT::SplitNotValid` from
`cpp/src/decisiontree/batched-levelalgo/kernels.cuh`:
`split.best_metric_val <= min_impurity_decrease || split.nLeft < min_samples_leaf ||
 (IdxT(num_rows) - split.nLeft) < min_samples_leaf`. -/
def SplitNotValid (split : Split) (min_impurity_decrease : Rat)
    (min_samples_leaf : Int) (num_rows : Nat) : Bool :=
  split.best_metric_val ≤ min_impurity_decrease ∨ split.nLeft < min_samples_leaf ∨
    (num_rows : Int) - split.nLeft < min_samples_leaf

/-- Embeds `ML::DT::lower_bound` from
`cpp/src/decisiontree/batched-levelalgo/kernels.cuh`: binary search over
`sbins[0..nbins-1]` with `start = 0`, `end = nbins - 1`,
`mid = (start + end) / 2`, moving `start` past `mid` when
`sbins[mid] < d` and `end` down to `mid` otherwise. This is the loop
body, recursing on the shrinking interval; `lower_bound` below supplies
the initial bounds. -/
def lower_bound_loop (sbins : Nat → Rat) (d : Rat) (start «end» : Nat) : Nat :=
  if h : start < «end» then
    let mid := (start + «end») / 2
    if sbins mid < d then
      lower_bound_loop sbins d (mid + 1) «end»
    else
      lower_bound_loop sbins d start mid
  else start
termination_by «end» - start
decreasing_by
  · have hm : (start + «end») / 2 < «end» := by omega
    omega
  · have hm : start ≤ (start + «end») / 2 := by omega
    omega

/-- Embeds `ML::DT::lower_bound`: entry point with `start = 0`, `end = nbins - 1`. -/
def lower_bound (sbins : Nat → Rat) (nbins : Nat) (d : Rat) : Nat :=
  lower_bound_loop sbins d 0 (nbins - 1)

theorem lower_bound_loop_ge_start (sbins : Nat → Rat) (d : Rat) :
    ∀ start e, start ≤ lower_bound_loop sbins d start e := by
  intro start e
  induction start, e using lower_bound_loop.induct sbins d with
  | case1 start e h mid hlt ih =>
    rw [lower_bound_loop, dif_pos h, if_pos hlt]
    have : start ≤ mid + 1 := by omega
    exact this.trans ih
  | case2 start e h mid hlt ih =>
    rw [lower_bound_loop, dif_pos h, if_neg hlt]
    exact ih
  | case3 start e h =>
    rw [lower_bound_loop, dif_neg h]

theorem lower_bound_loop_le_end (sbins : Nat → Rat) (d : Rat) :
    ∀ start e, start ≤ e → lower_bound_loop sbins d start e ≤ e := by
  intro start e hse
  induction start, e using lower_bound_loop.induct sbins d with
  | case1 start e h mid hlt ih =>
    rw [lower_bound_loop, dif_pos h, if_pos hlt]
    exact ih (by omega)
  | case2 start e h mid hlt ih =>
    rw [lower_bound_loop, dif_pos h, if_neg hlt]
    have hmid : mid = (start + e) / 2 := rfl
    have : lower_bound_loop sbins d start mid ≤ mid := ih (by omega)
    rw [hmid] at this
    omega
  | case3 start e h =>
    rw [lower_bound_loop, dif_neg h]
    omega

/-- Invariant-carrying correctness of the binary-search loop: below the
returned index every bin boundary is `< d`, and the returned index either
has a boundary `≥ d` or is the last bin `nbins - 1`. -/
theorem lower_bound_loop_spec (sbins : Nat → Rat) (d : Rat) (nbins : Nat)
    (hsort : ∀ i j, i ≤ j → j < nbins → sbins i ≤ sbins j) :
    ∀ start e, start ≤ e → e < nbins →
    (∀ j, j < start → sbins j < d) →
    (d ≤ sbins e ∨ e = nbins - 1) →
    (∀ j, j < lower_bound_loop sbins d start e → sbins j < d) ∧
    (d ≤ sbins (lower_bound_loop sbins d start e) ∨
      lower_bound_loop sbins d start e = nbins - 1) := by
  intro start e
  induction start, e using lower_bound_loop.induct sbins d with
  | case1 start e h mid hlt ih =>
    intro hse he hbelow hend
    rw [lower_bound_loop, dif_pos h, if_pos hlt]
    have hmid : mid = (start + e) / 2 := rfl
    refine ih ?_ he ?_ hend
    · omega
    · intro j hj
      have hjm : j ≤ mid := by omega
      have : sbins j ≤ sbins mid := hsort j mid hjm (by omega)
      exact lt_of_le_of_lt this hlt
  | case2 start e h mid hlt ih =>
    intro hse he hbelow hend
    rw [lower_bound_loop, dif_pos h, if_neg hlt]
    have hmid : mid = (start + e) / 2 := rfl
    refine ih ?_ ?_ hbelow ?_
    · omega
    · omega
    · exact Or.inl (le_of_not_lt hlt)
  | case3 start e h =>
    intro hse he hbelow hend
    rw [lower_bound_loop, dif_neg h]
    have : start = e := by omega
    subst this
    exact ⟨hbelow, hend⟩

/-- C10: for every `nbins ≥ 1`, non-decreasing bin boundaries `sbins`, and
every data value `d`, `lower_bound sbins nbins d` is an index in
`[0, nbins-1]`; it is the least index whose boundary is `≥ d` when one
exists, and `nbins - 1` otherwise — so the histogram increment at the
returned bin never indexes out of bounds. -/
theorem lower_bound_le_spec (sbins : Nat → Rat) (nbins : Nat) (d : Rat)
    (hn : 1 ≤ nbins)
    (hsort : ∀ i j, i ≤ j → j < nbins → sbins i ≤ sbins j) :
    lower_bound sbins nbins d < nbins ∧
    (∀ i, i < nbins → d ≤ sbins i → lower_bound sbins nbins d ≤ i) ∧
    ((∃ i, i < nbins ∧ d ≤ sbins i) → d ≤ sbins (lower_bound sbins nbins d)) ∧
    ((∀ i, i < nbins → sbins i < d) → lower_bound sbins nbins d = nbins - 1) := by
  have hspec := lower_bound_loop_spec sbins d nbins hsort 0 (nbins - 1)
    (by omega) (by omega) (by omega) (Or.inr rfl)
  have hle : lower_bound_loop sbins d 0 (nbins - 1) ≤ nbins - 1 :=
    lower_bound_loop_le_end sbins d 0 (nbins - 1) (by omega)
  unfold lower_bound
  set r := lower_bound_loop sbins d 0 (nbins - 1) with hr
  obtain ⟨hbelow, hat⟩ := hspec
  have hrange : r < nbins := by omega
  refine ⟨hrange, ?_, ?_, ?_⟩
  · intro i hi hdi
    by_contra hcon
    have : sbins i < d := hbelow i (by omega)
    exact absurd hdi (not_le.mpr this)
  · rintro ⟨i, hi, hdi⟩
    rcases hat with hgood | hlast
    · exact hgood
    · by_contra hcon
      have hir : i ≤ r := by omega
      rcases Nat.lt_or_ge i r with hlt | hge
      · exact absurd hdi (not_le.mpr (hbelow i hlt))
      · have : i = r := by omega
        subst this
        exact hcon hdi
  · intro hall
    rcases hat with hgood | hlast
    · exact absurd hgood (not_le.mpr (hall r hrange))
    · exact hlast

/-- Witness for `lower_bound_le_spec` at a concrete input: constant bins
all below `d`, so the result is the last bin `nbins - 1 = 2`. -/
theorem lower_bound_le_spec_witness :
    lower_bound (fun _ => (0 : Rat)) 3 1 < 3 ∧
    ((∀ i, i < 3 → (fun _ => (0 : Rat)) i < 1) →
      lower_bound (fun _ => (0 : Rat)) 3 1 = 3 - 1) := by
  have h := lower_bound_le_spec (fun _ => (0 : Rat)) 3 1 (by omega)
    (fun i j _ _ => le_refl 0)
  exact ⟨h.1, h.2.2.2⟩

/-- C3: `SplitNotValid` rejects a candidate split exactly when the gain is
at most `min_impurity_decrease`, or the left count is below
`min_samples_leaf`, or the right count — computed as `num_rows` minus the
left count — is below `min_samples_leaf`; in particular a zero-gain split
(identical labels) is always rejected when `min_impurity_decrease ≥ 0`. -/
theorem SplitNotValid_iff (split : Split) (min_impurity_decrease : Rat)
    (min_samples_leaf : Int) (num_rows : Nat) :
    (SplitNotValid split min_impurity_decrease min_samples_leaf num_rows = true ↔
      (split.best_metric_val ≤ min_impurity_decrease ∨
       split.nLeft < min_samples_leaf ∨
       (num_rows : Int) - split.nLeft < min_samples_leaf)) ∧
    (split.best_metric_val = 0 → 0 ≤ min_impurity_decrease →
      SplitNotValid split min_impurity_decrease min_samples_leaf num_rows = true) := by
  constructor
  · simp [SplitNotValid]
  · intro hzero hmid
    simp [SplitNotValid, hzero, hmid]

/-- Witness for `SplitNotValid_iff`: a zero-gain split is rejected. -/
theorem SplitNotValid_iff_witness :
    SplitNotValid ⟨0, 0, 0, 5⟩ 0 1 10 = true :=
  (SplitNotValid_iff ⟨0, 0, 0, 5⟩ 0 1 10).2 rfl (le_refl 0)

/-- Embeds `ML::DT::InstanceRange`: the range of instances belonging to a node,
referring to a range in `input.rowids`. -/
structure InstanceRange where
  start : Nat
  count : Nat

/-- Embeds `ML::DT::NodeWorkItem` (the `depth` field is irrelevant to the kernels
studied here and omitted). -/
structure NodeWorkItem where
  idx : Nat
  instances : InstanceRange

/-- The slice of `ML::DT::Input` used by `partitionSamples` and
`nodeSplitKernel`: the column-major feature matrix (`data`, leading
dimension `M`). `data` maps a flat device index to a float rank. -/
structure TrainInput where
  M : Nat
  data : Nat → Int

/-- The column pointer `col = input.data + split.colid * input.M`
of `partitionSamples`; `colAt input split rid` is `col[rid]`. -/
def colAt (input : TrainInput) (split : Split) (rid : Nat) : Int :=
  input.data (split.colid * input.M + rid)

/-- The swap loop of `ML::DT::partitionSamples`
(`cpp/src/decisiontree/batched-levelalgo/kernels.cuh`), embedded at its
sequential (one-thread, `TPB = 1`) semantics: `l` scans the left
sub-range `[range_start, part)` for misfits (`col[rowids[l]] > quesval`),
`r` scans the right sub-range `[part, end)` for misfits
(`col[rowids[r]] <= quesval`), and the k-th left misfit is swapped with
the k-th right misfit — exactly the pairing the block-cooperative
exclusive-sum compaction computes — until one cursor leaves its
sub-range. `rowids` is the row-id permutation array. -/
def partitionLoop (c : Nat → Int) (quesval : Int) (part endi : Nat)
    (l r : Nat) (rowids : Nat → Nat) : Nat → Nat :=
  if h : l < part ∧ r < endi then
    if c (rowids l) > quesval then
      if c (rowids r) ≤ quesval then
        partitionLoop c quesval part endi (l + 1) (r + 1)
          (rowids ∘ Equiv.swap l r)
      else
        partitionLoop c quesval part endi l (r + 1) rowids
    else
      partitionLoop c quesval part endi (l + 1) r rowids
  else rowids
termination_by (part - l) + (endi - r)
decreasing_by
  · omega
  · omega
  · omega

/-- Embeds `ML::DT::partitionSamples`: partitions the node's row-id range
`[instances.start, instances.start + instances.count)` at
`part = instances.start + split.nLeft` using the swap loop. -/
def partitionSamples (input : TrainInput) (split : Split)
    (work_item : NodeWorkItem) (rowids : Nat → Nat) : Nat → Nat :=
  let range_start := work_item.instances.start
  let range_len := work_item.instances.count
  let part := range_start + split.nLeft.toNat
  partitionLoop (colAt input split) split.quesval part (range_start + range_len)
    range_start part rowids

/-- Embeds `ML::DT::nodeSplitKernel`, per work item (one thread block): if the
best split is not valid the block returns immediately, otherwise it
partitions the samples. The row-id array is the only state it may write. -/
def nodeSplitKernel_item (min_samples_leaf : Int) (min_impurity_decrease : Rat)
    (input : TrainInput) (work_item : NodeWorkItem) (split : Split)
    (rowids : Nat → Nat) : Nat → Nat :=
  if SplitNotValid split min_impurity_decrease min_samples_leaf
      work_item.instances.count then
    rowids
  else
    partitionSamples input split work_item rowids

/-- C9: when `SplitNotValid` holds for a work item's split, the
`nodeSplitKernel` work item performs no partitioning: the row-id
permutation array is returned unchanged (pointwise identical, inside and
outside the node's instance range). -/
theorem nodeSplitKernel_item_frame (min_samples_leaf : Int)
    (min_impurity_decrease : Rat) (input : TrainInput)
    (work_item : NodeWorkItem) (split : Split) (rowids : Nat → Nat)
    (hinvalid : SplitNotValid split min_impurity_decrease min_samples_leaf
      work_item.instances.count = true) :
    nodeSplitKernel_item min_samples_leaf min_impurity_decrease input
      work_item split rowids = rowids := by
  unfold nodeSplitKernel_item
  rw [hinvalid]
  simp

/-- Witness for `nodeSplitKernel_item_frame` at a concrete rejected split. -/
theorem nodeSplitKernel_item_frame_witness :
    nodeSplitKernel_item 1 0 ⟨10, fun _ => 0⟩ ⟨0, ⟨0, 10⟩⟩ ⟨0, 0, 0, 5⟩
      (fun i => i) = fun i => i :=
  nodeSplitKernel_item_frame 1 0 ⟨10, fun _ => 0⟩ ⟨0, ⟨0, 10⟩⟩ ⟨0, 0, 0, 5⟩
    (fun i => i) (by decide)

/-- Invariant proof for the partition swap loop. On entry, the processed
left prefix `[beg, l)` holds only left-assigned rows, the processed right
block `[part, r)` holds only right-assigned rows, and the number of
misfits left to fix is the same on both sides. The loop then returns a
permutation of `rowids` (supported inside `[beg, endi)`) whose left
sub-range is entirely left-assigned and whose right sub-range is entirely
right-assigned. -/
theorem partitionLoop_spec (c : Nat → Int) (q : Int) (beg part endi : Nat)
    (hbp : beg ≤ part) :
    ∀ l r rowids, beg ≤ l → l ≤ part → part ≤ r → r ≤ endi →
    (∀ i, beg ≤ i → i < l → c (rowids i) ≤ q) →
    (∀ i, part ≤ i → i < r → q < c (rowids i)) →
    ((Finset.Ico l part).filter (fun i => q < c (rowids i))).card
      = ((Finset.Ico r endi).filter (fun i => c (rowids i) ≤ q)).card →
    (∃ σ : Equiv.Perm Nat, (∀ i, i < beg ∨ endi ≤ i → σ i = i) ∧
       partitionLoop c q part endi l r rowids = rowids ∘ σ) ∧
    (∀ i, beg ≤ i → i < part →
      c (partitionLoop c q part endi l r rowids i) ≤ q) ∧
    (∀ i, part ≤ i → i < endi →
      q < c (partitionLoop c q part endi l r rowids i)) := by
  intro l r rowids
  induction l, r, rowids using partitionLoop.induct c q part endi with
  | case1 l r rowids h hq hr ih =>
    intro hbl hlp hpr hre hleft hright hcount
    rw [partitionLoop, dif_pos h, if_pos hq, if_pos hr]
    have hlr : l ≠ r := by omega
    have hswap_other : ∀ i, i ≠ l → i ≠ r →
        (rowids ∘ Equiv.swap l r) i = rowids i := by
      intro i hil hir
      simp [Function.comp, Equiv.swap_apply_of_ne_of_ne hil hir]
    have hswap_l : (rowids ∘ Equiv.swap l r) l = rowids r := by
      simp [Function.comp]
    have hswap_r : (rowids ∘ Equiv.swap l r) r = rowids l := by
      simp [Function.comp]
    have hcount' :
        ((Finset.Ico (l + 1) part).filter
          (fun i => q < c ((rowids ∘ Equiv.swap l r) i))).card
        = ((Finset.Ico (r + 1) endi).filter
          (fun i => c ((rowids ∘ Equiv.swap l r) i) ≤ q)).card := by
      have hfl : ((Finset.Ico (l + 1) part).filter
          (fun i => q < c ((rowids ∘ Equiv.swap l r) i)))
          = ((Finset.Ico (l + 1) part).filter (fun i => q < c (rowids i))) := by
        apply Finset.filter_congr
        intro i hi
        rw [Finset.mem_Ico] at hi
        rw [hswap_other i (by omega) (by omega)]
      have hfr : ((Finset.Ico (r + 1) endi).filter
          (fun i => c ((rowids ∘ Equiv.swap l r) i) ≤ q))
          = ((Finset.Ico (r + 1) endi).filter (fun i => c (rowids i) ≤ q)) := by
        apply Finset.filter_congr
        intro i hi
        rw [Finset.mem_Ico] at hi
        rw [hswap_other i (by omega) (by omega)]
      have hsl : (Finset.Ico l part) = insert l (Finset.Ico (l + 1) part) :=
        (Nat.Ico_insert_succ_left h.1).symm
      have hsr : (Finset.Ico r endi) = insert r (Finset.Ico (r + 1) endi) :=
        (Nat.Ico_insert_succ_left h.2).symm
      have hlnotmem : l ∉ Finset.Ico (l + 1) part := by
        rw [Finset.mem_Ico]; omega
      have hrnotmem : r ∉ Finset.Ico (r + 1) endi := by
        rw [Finset.mem_Ico]; omega
      have hcl : ((Finset.Ico l part).filter (fun i => q < c (rowids i))).card
          = ((Finset.Ico (l + 1) part).filter (fun i => q < c (rowids i))).card
            + 1 := by
        rw [hsl, Finset.filter_insert, if_pos hq,
          Finset.card_insert_of_not_mem (fun hmem => hlnotmem
            (Finset.mem_of_mem_filter l hmem))]
      have hcr : ((Finset.Ico r endi).filter (fun i => c (rowids i) ≤ q)).card
          = ((Finset.Ico (r + 1) endi).filter (fun i => c (rowids i) ≤ q)).card
            + 1 := by
        rw [hsr, Finset.filter_insert, if_pos hr,
          Finset.card_insert_of_not_mem (fun hmem => hrnotmem
            (Finset.mem_of_mem_filter r hmem))]
      rw [hfl, hfr]
      omega
    obtain ⟨⟨σ, hσfix, hσeq⟩, hL, hR⟩ := ih (by omega) (by omega) (by omega)
      (by omega)
      (by
        intro i hbi hil
        rcases Nat.lt_or_ge i l with hlt | hge
        · rw [hswap_other i (by omega) (by omega)]
          exact hleft i hbi hlt
        · have : i = l := by omega
          subst this
          rw [hswap_l]
          exact hr)
      (by
        intro i hpi hir
        rcases Nat.lt_or_ge i r with hlt | hge
        · rw [hswap_other i (by omega) (by omega)]
          exact hright i hpi hlt
        · have : i = r := by omega
          subst this
          rw [hswap_r]
          exact hq)
      hcount'
    refine ⟨⟨σ.trans (Equiv.swap l r), ?_, ?_⟩, hL, hR⟩
    · intro i hi
      have hσi : σ i = i := hσfix i hi
      have hil : i ≠ l := by omega
      have hir : i ≠ r := by omega
      calc (σ.trans (Equiv.swap l r)) i = Equiv.swap l r (σ i) := rfl
        _ = Equiv.swap l r i := by rw [hσi]
        _ = i := Equiv.swap_apply_of_ne_of_ne hil hir
    · rw [hσeq]
      funext i
      simp [Function.comp]
  | case2 l r rowids h hq hr ih =>
    intro hbl hlp hpr hre hleft hright hcount
    rw [partitionLoop, dif_pos h, if_pos hq, if_neg hr]
    refine ih hbl hlp (by omega) (by omega) hleft ?_ ?_
    · intro i hpi hir
      rcases Nat.lt_or_ge i r with hlt | hge
      · exact hright i hpi hlt
      · have : i = r := by omega
        subst this
        omega
    · have hsr : (Finset.Ico r endi) = insert r (Finset.Ico (r + 1) endi) :=
        (Nat.Ico_insert_succ_left h.2).symm
      rw [hsr, Finset.filter_insert, if_neg hr] at hcount
      exact hcount
  | case3 l r rowids h hq ih =>
    intro hbl hlp hpr hre hleft hright hcount
    rw [partitionLoop, dif_pos h, if_neg hq]
    refine ih (by omega) (by omega) hpr hre ?_ hright ?_
    · intro i hbi hil
      rcases Nat.lt_or_ge i l with hlt | hge
      · exact hleft i hbi hlt
      · have : i = l := by omega
        subst this
        omega
    · have hsl : (Finset.Ico l part) = insert l (Finset.Ico (l + 1) part) :=
        (Nat.Ico_insert_succ_left h.1).symm
      rw [hsl, Finset.filter_insert, if_neg hq] at hcount
      exact hcount
  | case4 l r rowids h =>
    intro hbl hlp hpr hre hleft hright hcount
    rw [partitionLoop, dif_neg h]
    refine ⟨⟨Equiv.refl Nat, fun i _ => rfl, by
      funext i; simp⟩, ?_, ?_⟩
    · intro i hbi hip
      rcases Nat.lt_or_ge i l with hlt | hge
      · exact hleft i hbi hlt
      · -- the loop exited, so l = part or r = endi
        rcases not_and_or.mp h with hl | hr
        · omega
        · -- r = endi: the right side has no misfits left, so neither does
          -- the left side, and [l, part) is all left-assigned
          have hrend : r = endi := by omega
          subst hrend
          rw [Finset.Ico_self, Finset.filter_empty, Finset.card_empty] at hcount
          have hempty : ((Finset.Ico l part).filter
              (fun i => q < c (rowids i))) = ∅ :=
            Finset.card_eq_zero.mp hcount
          by_contra hcon
          have himem : i ∈ (Finset.Ico l part).filter
              (fun i => q < c (rowids i)) := by
            rw [Finset.mem_filter, Finset.mem_Ico]
            exact ⟨⟨hge, hip⟩, by omega⟩
          rw [hempty] at himem
          exact absurd himem (Finset.not_mem_empty i)
    · intro i hpi hie
      rcases Nat.lt_or_ge i r with hlt | hge
      · exact hright i hpi hlt
      · rcases not_and_or.mp h with hl | hr
        · have hlpart : l = part := by omega
          subst hlpart
          rw [Finset.Ico_self, Finset.filter_empty, Finset.card_empty] at hcount
          have hempty : ((Finset.Ico r endi).filter
              (fun i => c (rowids i) ≤ q)) = ∅ :=
            Finset.card_eq_zero.mp hcount.symm
          by_contra hcon
          have himem : i ∈ (Finset.Ico r endi).filter
              (fun i => c (rowids i) ≤ q) := by
            rw [Finset.mem_filter, Finset.mem_Ico]
            exact ⟨⟨hge, hie⟩, by omega⟩
          rw [hempty] at himem
          exact absurd himem (Finset.not_mem_empty i)
        · omega

/-- C4: `partitionSamples` on a node's contiguous row-id range, when
`split.nLeft` counts the left-assigned rows (those whose split-column
value is `≤ split.quesval`), produces a permutation of the row-id array
supported inside the range — the multiset of row ids is preserved, the
operation is a permutation and not a filter — after which every
left-assigned row id occupies the prefix of length `nLeft` and every
right-assigned row id occupies the suffix. -/
theorem partitionSamples_spec (input : TrainInput) (split : Split)
    (work_item : NodeWorkItem) (rowids : Nat → Nat)
    (hn : split.nLeft.toNat =
      ((Finset.Ico work_item.instances.start
        (work_item.instances.start + work_item.instances.count)).filter
        (fun i => colAt input split (rowids i) ≤ split.quesval)).card) :
    (∃ σ : Equiv.Perm Nat,
      (∀ i, i < work_item.instances.start ∨
        work_item.instances.start + work_item.instances.count ≤ i → σ i = i) ∧
      partitionSamples input split work_item rowids = rowids ∘ σ) ∧
    (∀ i, work_item.instances.start ≤ i →
      i < work_item.instances.start + split.nLeft.toNat →
      colAt input split (partitionSamples input split work_item rowids i)
        ≤ split.quesval) ∧
    (∀ i, work_item.instances.start + split.nLeft.toNat ≤ i →
      i < work_item.instances.start + work_item.instances.count →
      split.quesval <
        colAt input split (partitionSamples input split work_item rowids i)) := by
  set beg := work_item.instances.start with hbeg
  set cnt := work_item.instances.count with hcnt
  set part := beg + split.nLeft.toNat with hpart
  set endi := beg + cnt with hendi
  set c := colAt input split with hc
  set q := split.quesval with hq
  have hcard_le : split.nLeft.toNat ≤ cnt := by
    rw [hn]
    calc ((Finset.Ico beg endi).filter (fun i => c (rowids i) ≤ q)).card
        ≤ (Finset.Ico beg endi).card := Finset.card_filter_le _ _
      _ = cnt := by rw [Nat.card_Ico]; omega
  have hpe : part ≤ endi := by omega
  -- split the defining count of nLeft across the two sub-ranges
  have hsplitIco : Finset.Ico beg part ∪ Finset.Ico part endi
      = Finset.Ico beg endi :=
    Finset.Ico_union_Ico_eq_Ico (by omega) hpe
  have hdisj : Disjoint (Finset.Ico beg part) (Finset.Ico part endi) :=
    Finset.Ico_disjoint_Ico_consecutive beg part endi
  have hsum : ((Finset.Ico beg part).filter (fun i => c (rowids i) ≤ q)).card
      + ((Finset.Ico part endi).filter (fun i => c (rowids i) ≤ q)).card
      = split.nLeft.toNat := by
    rw [hn, ← hsplitIco, Finset.filter_union,
      Finset.card_union_of_disjoint
        (hdisj.mono (Finset.filter_subset _ _) (Finset.filter_subset _ _))]
  have hnegcount :
      ((Finset.Ico beg part).filter (fun i => c (rowids i) ≤ q)).card
      + ((Finset.Ico beg part).filter (fun i => q < c (rowids i))).card
      = part - beg := by
    have := Finset.filter_card_add_filter_neg_card_eq_card
      (s := Finset.Ico beg part) (p := fun i => c (rowids i) ≤ q)
    rw [Nat.card_Ico] at this
    have hcongr : ((Finset.Ico beg part).filter (fun i => ¬ (c (rowids i) ≤ q)))
        = ((Finset.Ico beg part).filter (fun i => q < c (rowids i))) := by
      apply Finset.filter_congr
      intro i _
      simp [not_le]
    rw [hcongr] at this
    exact this
  have hcount0 : ((Finset.Ico beg part).filter (fun i => q < c (rowids i))).card
      = ((Finset.Ico part endi).filter (fun i => c (rowids i) ≤ q)).card := by
    omega
  have hmain := partitionLoop_spec c q beg part endi (by omega) beg part rowids
    (le_refl beg) (by omega) (le_refl part) hpe
    (by intro i h1 h2; omega)
    (by intro i h1 h2; omega)
    hcount0
  have hps : partitionSamples input split work_item rowids
      = partitionLoop c q part endi beg part rowids := rfl
  rw [hps]
  exact hmain

/-- Witness for `partitionSamples_spec`: a two-row range with row 0
right-assigned and row 1 left-assigned; the left and right regions hold
the advertised values after partitioning. -/
theorem partitionSamples_spec_witness :
    colAt ⟨1, fun i => if i = 0 then 5 else 0⟩ ⟨0, 0, 0, 1⟩
      (partitionSamples ⟨1, fun i => if i = 0 then 5 else 0⟩ ⟨0, 0, 0, 1⟩
        ⟨0, ⟨0, 2⟩⟩ (fun i => i) 0) ≤ 0 := by
  have h := partitionSamples_spec ⟨1, fun i => if i = 0 then 5 else 0⟩
    ⟨0, 0, 0, 1⟩ ⟨0, ⟨0, 2⟩⟩ (fun i => i) (by decide)
  exact h.2.1 0 (by decide) (by decide)

/-- Embeds `ML::DT::fnv1a32_prime`. -/
def fnv1a32_prime : Nat := 16777619

/-- Embeds `ML::DT::fnv1a32_basis`. -/
def fnv1a32_basis : Nat := 2166136261

/-- One byte-mixing round of `ML::DT::fnv1a32`:
`hash ^= byte; hash *= fnv1a32_prime;` in `uint32_t` arithmetic. -/
def fnv1a32_round (hash byte : Nat) : Nat :=
  ((hash ^^^ byte) * fnv1a32_prime) % 2 ^ 32

/-- Embeds `ML::DT::fnv1a32` from
`cpp/src/decisiontree/batched-levelalgo/kernels.cuh`: mixes the four
bytes of `txt` (least significant first) into `hash`. -/
def fnv1a32 (hash txt : Nat) : Nat :=
  fnv1a32_round
    (fnv1a32_round
      (fnv1a32_round
        (fnv1a32_round hash ((txt >>> 0) &&& 0xFF))
        ((txt >>> 8) &&& 0xFF))
      ((txt >>> 16) &&& 0xFF))
    ((txt >>> 24) &&& 0xFF)

/-- The candidate hash computed inside `ML::DT::select` for index `i`:
`fnv1a32` chained over `uint32_t(i)`, `uint32_t(treeid)`,
`uint32_t(nodeid)`, `uint32_t(seed >> 32)`, `uint32_t(seed)`,
starting from `fnv1a32_basis`. -/
def select_hash (i treeid nodeid seed : Nat) : Nat :=
  fnv1a32
    (fnv1a32
      (fnv1a32
        (fnv1a32
          (fnv1a32 fnv1a32_basis (i % 2 ^ 32))
          (treeid % 2 ^ 32))
        (nodeid % 2 ^ 32))
      ((seed >>> 32) % 2 ^ 32))
    (seed % 2 ^ 32)

/-- Embeds `ML::DT::select`: the block-wide `atomicAdd`-accumulated count of
candidate indices `i ≠ k` in `[0, N)` whose hash is less than the pivot
hash of `k`, ties broken by index order. The count over all threads of
the block is the cardinality of this filter. -/
def select (k treeid nodeid seed N : Nat) : Nat :=
  ((Finset.range N).filter (fun i => i ≠ k ∧
    (select_hash i treeid nodeid seed < select_hash k treeid nodeid seed ∨
      (select_hash i treeid nodeid seed = select_hash k treeid nodeid seed ∧
        i < k)))).card

/-- The strict tie-broken comparison used by `select`, as a relation. -/
def select_key_lt (treeid nodeid seed : Nat) (i k : Nat) : Prop :=
  select_hash i treeid nodeid seed < select_hash k treeid nodeid seed ∨
    (select_hash i treeid nodeid seed = select_hash k treeid nodeid seed ∧
      i < k)

instance (treeid nodeid seed i k : Nat) :
    Decidable (select_key_lt treeid nodeid seed i k) := by
  unfold select_key_lt
  exact inferInstance

theorem select_eq_card_key_lt (k treeid nodeid seed N : Nat) :
    select k treeid nodeid seed N =
    ((Finset.range N).filter (fun i => select_key_lt treeid nodeid seed i k)).card := by
  unfold select
  congr 1
  apply Finset.filter_congr
  intro i _
  unfold select_key_lt
  constructor
  · rintro ⟨_, h⟩
    exact h
  · intro h
    refine ⟨?_, h⟩
    rintro rfl
    rcases h with h | ⟨_, h⟩
    · omega
    · omega

theorem select_key_lt_trans (treeid nodeid seed : Nat) :
    ∀ {a b c : Nat}, select_key_lt treeid nodeid seed a b →
      select_key_lt treeid nodeid seed b c →
      select_key_lt treeid nodeid seed a c := by
  rintro a b c (hab | ⟨hab, hab2⟩) (hbc | ⟨hbc, hbc2⟩)
  · exact Or.inl (hab.trans hbc)
  · exact Or.inl (by omega)
  · exact Or.inl (by omega)
  · exact Or.inr ⟨hab.trans hbc, hab2.trans hbc2⟩

theorem select_key_lt_total (treeid nodeid seed : Nat) {a b : Nat}
    (hne : a ≠ b) :
    select_key_lt treeid nodeid seed a b ∨
      select_key_lt treeid nodeid seed b a := by
  rcases lt_trichotomy (select_hash a treeid nodeid seed)
      (select_hash b treeid nodeid seed) with h | h | h
  · exact Or.inl (Or.inl h)
  · rcases Nat.lt_or_ge a b with hab | hab
    · exact Or.inl (Or.inr ⟨h, hab⟩)
    · exact Or.inr (Or.inr ⟨h.symm, by omega⟩)
  · exact Or.inr (Or.inl h)

theorem select_key_lt_irrefl (treeid nodeid seed : Nat) (a : Nat) :
    ¬ select_key_lt treeid nodeid seed a a := by
  rintro (h | ⟨_, h⟩)
  · exact absurd h (lt_irrefl _)
  · exact absurd h (lt_irrefl _)

/-- Monotonicity: `select` is strictly monotone along the tie-broken key order. -/
theorem select_strictMono_in_key (treeid nodeid seed N : Nat) {j k : Nat}
    (hj : j < N) (hjk : select_key_lt treeid nodeid seed j k) :
    select j treeid nodeid seed N < select k treeid nodeid seed N := by
  rw [select_eq_card_key_lt, select_eq_card_key_lt]
  apply Finset.card_lt_card
  rw [Finset.ssubset_iff_of_subset]
  · exact ⟨j, by
      rw [Finset.mem_filter, Finset.mem_range]
      exact ⟨⟨hj, hjk⟩, by
        rw [Finset.mem_filter]
        rintro ⟨_, hcon⟩
        exact select_key_lt_irrefl treeid nodeid seed j hcon⟩⟩
  · intro i hi
    rw [Finset.mem_filter] at hi ⊢
    exact ⟨hi.1, select_key_lt_trans treeid nodeid seed hi.2 hjk⟩

/-- C6: for every `(treeid, nodeid, seed)` and every `N ≥ 1`, the map
`k ↦ select k treeid nodeid seed N` is a bijection of `{0, …, N-1}` onto
itself: every value is `< N`, distinct arguments give distinct values,
and every target `m < N` is attained. `select` is a pure function of its
arguments, so repeated evaluations agree by definition. -/
theorem select_is_permutation (treeid nodeid seed N : Nat) (hN : 1 ≤ N) :
    (∀ k, k < N → select k treeid nodeid seed N < N) ∧
    (∀ j k, j < N → k < N → select j treeid nodeid seed N =
      select k treeid nodeid seed N → j = k) ∧
    (∀ m, m < N → ∃ k, k < N ∧ select k treeid nodeid seed N = m) := by
  have hbound : ∀ k, k < N → select k treeid nodeid seed N < N := by
    intro k hk
    rw [select_eq_card_key_lt]
    have hsub : (Finset.range N).filter
        (fun i => select_key_lt treeid nodeid seed i k)
        ⊆ (Finset.range N).erase k := by
      intro i hi
      rw [Finset.mem_filter] at hi
      rw [Finset.mem_erase]
      refine ⟨?_, hi.1⟩
      rintro rfl
      exact select_key_lt_irrefl treeid nodeid seed i hi.2
    calc ((Finset.range N).filter
        (fun i => select_key_lt treeid nodeid seed i k)).card
        ≤ ((Finset.range N).erase k).card := Finset.card_le_card hsub
      _ = N - 1 := by rw [Finset.card_erase_of_mem (Finset.mem_range.mpr hk),
            Finset.card_range]
      _ < N := by omega
  have hinj : ∀ j k, j < N → k < N → select j treeid nodeid seed N =
      select k treeid nodeid seed N → j = k := by
    intro j k hj hk heq
    by_contra hne
    rcases select_key_lt_total treeid nodeid seed hne with h | h
    · exact absurd heq
        (Nat.ne_of_lt (select_strictMono_in_key treeid nodeid seed N hj h))
    · exact absurd heq.symm
        (Nat.ne_of_lt (select_strictMono_in_key treeid nodeid seed N hk h))
  refine ⟨hbound, hinj, ?_⟩
  -- surjectivity: an injective self-map of the finite set `range N`
  have himage : Finset.image (fun k => select k treeid nodeid seed N)
      (Finset.range N) = Finset.range N := by
    apply Finset.eq_of_subset_of_card_le
    · intro m hm
      rw [Finset.mem_image] at hm
      obtain ⟨k, hk, hkm⟩ := hm
      rw [Finset.mem_range] at hk ⊢
      exact hkm ▸ hbound k hk
    · rw [Finset.card_image_of_injOn
        (fun j hj k hk heq => hinj j k (Finset.mem_range.mp hj)
          (Finset.mem_range.mp hk) heq)]
  intro m hm
  have : m ∈ Finset.image (fun k => select k treeid nodeid seed N)
      (Finset.range N) := himage.symm ▸ Finset.mem_range.mpr hm
  rw [Finset.mem_image] at this
  obtain ⟨k, hk, hkm⟩ := this
  exact ⟨k, Finset.mem_range.mp hk, hkm⟩

/-- Witness for `select_is_permutation` at `N = 3`: the selected column
indices lie in `[0, 3)` and the value `0` is attained. -/
theorem select_is_permutation_witness :
    (∀ k, k < 3 → select k 1 2 3 3 < 3) ∧
    (∃ k, k < 3 ∧ select k 1 2 3 3 = 0) := by
  have h := select_is_permutation 1 2 3 3 (by omega)
  exact ⟨h.1, h.2.2 0 (by omega)⟩

end CumlDT

namespace CumlFil

/-- The four supported treelite comparison operators (`tl::Operator`);
`kEQ` is intentionally unused by the code under study. -/
inductive Operator where
  | kLT
  | kLE
  | kGT
  | kGE
deriving DecidableEq

/-- Result of `ML::adjust_threshold_to_treelite`: the (possibly
perturbed) threshold, the two child keys, and the default direction.
The threshold is a finite float modelled by its rank in the total order
of finite floats (`nextafterf(t, -inf)` is the predecessor `t - 1`);
`none` stands for a NaN threshold, which signals a categorical node. -/
structure AdjustedNode where
  threshold : Option Int
  tl_left : Nat
  tl_right : Nat
  default_left : Bool
deriving DecidableEq

/-- Embeds `ML::adjust_threshold_to_treelite` from the FIL test harness: for a
NaN threshold, swap children and flip `default_left` (categorical
workaround); for `kLT` leave everything; for `kLE` perturb the threshold
to the next representable float below; for `kGT` perturb the threshold
*and* fall through into the `kGE` case (the switch has no `break`),
which swaps children and flips `default_left`. -/
def adjust_threshold_to_treelite (threshold : Option Int)
    (tl_left tl_right : Nat) (default_left : Bool) (op : Operator) :
    AdjustedNode :=
  match threshold with
  | none => ⟨none, tl_right, tl_left, !default_left⟩
  | some t =>
    match op with
    | .kLT => ⟨some t, tl_left, tl_right, default_left⟩
    | .kLE => ⟨some (t - 1), tl_left, tl_right, default_left⟩
    | .kGT => ⟨some (t - 1), tl_right, tl_left, !default_left⟩
    | .kGE => ⟨some t, tl_right, tl_left, !default_left⟩

/-- Treelite split semantics: take the left child iff `val op threshold`. -/
def op_holds (op : Operator) (val t : Int) : Bool :=
  match op with
  | .kLT => val < t
  | .kLE => val ≤ t
  | .kGT => val > t
  | .kGE => val ≥ t

/-- C2: the operator normalization is semantics-preserving. For every
comparison operator in `{<, <=, >, >=}`, every finite threshold `t` and
every finite input value `val`, the adjusted node — evaluated with the
treelite rule "left iff `val op threshold`" — routes `val` to the same
child as FIL's canonical rule "left iff `val < t`", and its default
direction denotes the same child; a NaN threshold is passed through as
the categorical-node marker with children swapped and default flipped,
again denoting the same children. -/
theorem adjust_threshold_preserves_routing (op : Operator) (t : Int)
    (l r : Nat) (d : Bool) (val : Int) :
    (∃ t2, (adjust_threshold_to_treelite (some t) l r d op).threshold = some t2 ∧
      (if op_holds op val t2
        then (adjust_threshold_to_treelite (some t) l r d op).tl_left
        else (adjust_threshold_to_treelite (some t) l r d op).tl_right)
        = (if val < t then l else r) ∧
      (if (adjust_threshold_to_treelite (some t) l r d op).default_left
        then (adjust_threshold_to_treelite (some t) l r d op).tl_left
        else (adjust_threshold_to_treelite (some t) l r d op).tl_right)
        = (if d then l else r)) ∧
    (adjust_threshold_to_treelite none l r d op
      = ⟨none, r, l, !d⟩ ∧
      (if (adjust_threshold_to_treelite none l r d op).default_left
        then (adjust_threshold_to_treelite none l r d op).tl_left
        else (adjust_threshold_to_treelite none l r d op).tl_right)
        = (if d then l else r)) := by
  constructor
  · cases op with
    | kLT =>
      refine ⟨t, rfl, ?_, ?_⟩
      · simp only [adjust_threshold_to_treelite, op_holds, decide_eq_true_eq]
      · cases d <;> simp [adjust_threshold_to_treelite]
    | kLE =>
      refine ⟨t - 1, rfl, ?_, ?_⟩
      · simp only [adjust_threshold_to_treelite, op_holds, decide_eq_true_eq]
        by_cases h : val < t
        · rw [if_pos (by omega : val ≤ t - 1), if_pos h]
        · rw [if_neg (by omega : ¬ val ≤ t - 1), if_neg h]
      · cases d <;> simp [adjust_threshold_to_treelite]
    | kGT =>
      refine ⟨t - 1, rfl, ?_, ?_⟩
      · simp only [adjust_threshold_to_treelite, op_holds, decide_eq_true_eq]
        by_cases h : val < t
        · rw [if_neg (by omega : ¬ val > t - 1), if_pos h]
        · rw [if_pos (by omega : val > t - 1), if_neg h]
      · cases d <;> simp [adjust_threshold_to_treelite]
    | kGE =>
      refine ⟨t, rfl, ?_, ?_⟩
      · simp only [adjust_threshold_to_treelite, op_holds, decide_eq_true_eq]
        by_cases h : val < t
        · rw [if_neg (by omega : ¬ val ≥ t), if_pos h]
        · rw [if_pos (by omega : val ≥ t), if_neg h]
      · cases d <;> simp [adjust_threshold_to_treelite]
  · refine ⟨rfl, ?_⟩
    cases d <;> simp [adjust_threshold_to_treelite]

/-- Embeds `fil::leaf_algo_t` (the variants exercised by `BaseFilTest`). -/
inductive leaf_algo_t where
  | FLOAT_UNARY_BINARY
  | GROVE_PER_CLASS
  | CATEGORICAL_LEAF
  | VECTOR_LEAF
deriving DecidableEq

/-- The fields of `ML::FilTestParams` used by `BaseFilTest::transform`
and `BaseFilTest::apply_softmax`. The `output_t` bit-field becomes four
booleans (`RAW` is all false); `cls` models the `CLASS` bit. Scores are
exact rationals; `expf` is an abstract map `E` supplied separately. -/
structure FilParams where
  num_trees : Nat
  num_classes : Nat
  threshold : Rat
  global_bias : Rat
  avg : Bool
  sigmoid : Bool
  cls : Bool
  softmax : Bool
  leaf_algo : leaf_algo_t

/-- Embeds `ML::sigmoid`: `1.0f / (1.0f + expf(-x))`, with `expf` abstracted
as `E`. -/
def sigmoidE (E : Rat → Rat) (x : Rat) : Rat := 1 / (1 + E (-x))

/-- Averaging stage of `BaseFilTest::transform`: under the `AVG` flag,
`f /= ps.num_trees / ps.num_classes` (C++ integer division) for
grove-per-class, else `f *= 1.0f / ps.num_trees`. -/
def stage_average (ps : FilParams) (f : Rat) : Rat :=
  if ps.avg then
    (if ps.leaf_algo = leaf_algo_t.GROVE_PER_CLASS then
      f / ((ps.num_trees / ps.num_classes : Nat) : Rat)
    else
      f * (1 / (ps.num_trees : Rat)))
  else f

/-- Bias stage: `f += ps.global_bias`. -/
def stage_bias (ps : FilParams) (f : Rat) : Rat := f + ps.global_bias

/-- Sigmoid stage: under the `SIGMOID` flag, `f = sigmoid(f)`. -/
def stage_sigmoid (ps : FilParams) (E : Rat → Rat) (f : Rat) : Rat :=
  if ps.sigmoid then sigmoidE E f else f

/-- Threshold-to-class stage: under the `CLASS` flag,
`f = f > ps.threshold ? 1.0f : 0.0f`. -/
def stage_threshold_to_class (ps : FilParams) (f : Rat) : Rat :=
  if ps.cls then (if f > ps.threshold then 1 else 0) else f

/-- Embeds `BaseFilTest::transform` translated statement by statement; returns
the pair `(proba, output)` written through the two reference
parameters. -/
def transform (ps : FilParams) (E : Rat → Rat) (f : Rat) : Rat × Rat :=
  let f1 := if ps.avg then
      (if ps.leaf_algo = leaf_algo_t.GROVE_PER_CLASS then
        f / ((ps.num_trees / ps.num_classes : Nat) : Rat)
      else
        f * (1 / (ps.num_trees : Rat)))
    else f
  let f2 := f1 + ps.global_bias
  let f3 := if ps.sigmoid then sigmoidE E f2 else f2
  let proba := f3
  let f4 := if ps.cls then (if f3 > ps.threshold then 1 else 0) else f3
  (proba, f4)

/-- Embeds `BaseFilTest::apply_softmax` translated statement by statement:
subtract the maximum, exponentiate with `E`, normalize by the sum. -/
def apply_softmax (E : Rat → Rat) (scores : List Rat) : List Rat :=
  let m := scores.foldl max (scores.headD 0)
  let exps := scores.map (fun x => E (x - m))
  let s := exps.sum
  exps.map (fun x => x / s)

theorem sum_map_div (l : List Rat) (s : Rat) :
    (l.map (fun x => x / s)).sum = l.sum / s := by
  induction l with
  | nil => simp
  | cons a t ih => simp [ih, add_div]

/-- C7: the output transform applies its stages in the fixed order —
averaging, then global bias, then sigmoid — and the probability output is
exactly the value before the threshold-to-class stage, which in turn
produces the class output (`1` iff the value exceeds the threshold);
`apply_softmax` (applied to the per-class probability slots, classes
only) produces scores that sum exactly to `1` whenever the abstract
exponential is positive. -/
theorem transform_pipeline_order (ps : FilParams) (E : Rat → Rat) (f : Rat)
    (scores : List Rat) (hE : ∀ x, 0 < E x) (hs : scores ≠ []) :
    (transform ps E f).1
      = stage_sigmoid ps E (stage_bias ps (stage_average ps f)) ∧
    (transform ps E f).2
      = stage_threshold_to_class ps (transform ps E f).1 ∧
    (apply_softmax E scores).sum = 1 := by
  refine ⟨rfl, rfl, ?_⟩
  unfold apply_softmax
  rw [sum_map_div]
  have hpos : 0 < (scores.map
      (fun x => E (x - scores.foldl max (scores.headD 0)))).sum := by
    apply List.sum_pos
    · intro x hx
      rw [List.mem_map] at hx
      obtain ⟨a, _, rfl⟩ := hx
      exact hE _
    · intro hcon
      rw [List.map_eq_nil_iff] at hcon
      exact hs hcon
  exact div_self (ne_of_gt hpos)

/-- Witness for `transform_pipeline_order` at a concrete model: one
class score, constant positive exponential, AVG+CLASS output. -/
theorem transform_pipeline_order_witness :
    (transform ⟨2, 1, 0, 1, true, false, true, false,
        leaf_algo_t.FLOAT_UNARY_BINARY⟩ (fun _ => 1) 4).2
      = stage_threshold_to_class ⟨2, 1, 0, 1, true, false, true, false,
        leaf_algo_t.FLOAT_UNARY_BINARY⟩
        (transform ⟨2, 1, 0, 1, true, false, true, false,
          leaf_algo_t.FLOAT_UNARY_BINARY⟩ (fun _ => 1) 4).1 ∧
    (apply_softmax (fun _ => 1) [0, 3]).sum = 1 := by
  have h := transform_pipeline_order ⟨2, 1, 0, 1, true, false, true, false,
      leaf_algo_t.FLOAT_UNARY_BINARY⟩ (fun _ => 1) 4 [0, 3]
    (fun x => one_pos) (by simp)
  exact ⟨h.2.1, h.2.2⟩

/-- An input feature value as seen by the categorical matcher: NaN, one
of the two infinities, or a finite float (represented exactly as a
rational). -/
inductive FloatVal where
  | NaN
  | PInf
  | NInf
  | finite (q : Rat)
deriving DecidableEq

/-- Modelled from the spec: `int category_matches(node_t node, float category)`
of `cpp/src/fil/internal.cuh` is not among the given sources (the test
file only points to it). Per spec §4.2: given a node's categorical-set
reference `node_set` into the byte-packed bit pool `bits`, and an input
feature value `v` — if `v` is non-finite or `v < 0` or
`v ≥ category_count[feature]`, the match result follows the fixed
default-match policy (not in the set); otherwise test bit
`floor(v) mod 8` of byte `floor(v) / 8` within the node's owned byte
range. -/
def category_matches (fid_num_cats : Nat → Rat) (bits : Nat → Nat)
    (node_set fid : Nat) : FloatVal → Bool
  | .finite q =>
    if q < 0 ∨ fid_num_cats fid ≤ q then false
    else
      Nat.testBit (bits (node_set + (Int.toNat ⌊q⌋) / 8)) ((Int.toNat ⌊q⌋) % 8)
  | _ => false

/-- Modelled from the spec: the traversal step at a categorical node
(`tree_base::child_index`, not among the given sources). Per spec §4.3,
the left child sits at `left`, the right child at `left + 1`, and the
condition bit selects the right child; a NaN feature value follows
`default_left`. -/
def child_index_categorical (def_left : Bool) (left : Nat)
    (fid_num_cats : Nat → Rat) (bits : Nat → Nat) (node_set fid : Nat)
    (v : FloatVal) : Nat :=
  let cond := match v with
    | .NaN => !def_left
    | _ => category_matches fid_num_cats bits node_set fid v
  left + (if cond then 1 else 0)

/-- C5: categorical-split matching. For every input value that is
non-finite, negative, or at least `category_count[feature]`, the match
result is the fixed default (not in the set); NaN inputs route through
`default_left`. For every in-range value `v`, the match result equals
direct inspection of bit `floor(v) mod 8` of byte `floor(v) / 8` inside
the node's owned byte range of the packed bit pool. -/
theorem category_matches_spec (fid_num_cats : Nat → Rat) (bits : Nat → Nat)
    (node_set fid : Nat) :
    (category_matches fid_num_cats bits node_set fid .NaN = false ∧
     category_matches fid_num_cats bits node_set fid .PInf = false ∧
     category_matches fid_num_cats bits node_set fid .NInf = false) ∧
    (∀ q : Rat, q < 0 ∨ fid_num_cats fid ≤ q →
      category_matches fid_num_cats bits node_set fid (.finite q) = false) ∧
    (∀ q : Rat, 0 ≤ q → q < fid_num_cats fid →
      category_matches fid_num_cats bits node_set fid (.finite q)
        = Nat.testBit (bits (node_set + (Int.toNat ⌊q⌋) / 8))
            ((Int.toNat ⌊q⌋) % 8)) ∧
    (∀ (def_left : Bool) (left : Nat),
      child_index_categorical def_left left fid_num_cats bits node_set fid .NaN
        = left + (if def_left then 0 else 1)) := by
  refine ⟨⟨rfl, rfl, rfl⟩, ?_, ?_, ?_⟩
  · intro q hq
    simp only [category_matches]
    rw [if_pos hq]
  · intro q h0 hcount
    simp only [category_matches]
    rw [if_neg (by push_neg; exact ⟨h0, hcount⟩)]
  · intro def_left left
    cases def_left <;> rfl

/-- Witness for `category_matches_spec`: out-of-range and in-range
lookups against a one-byte bit pool holding `0b00000100`. -/
theorem category_matches_spec_witness :
    category_matches (fun _ => 8) (fun _ => 4) 0 0 (.finite 9) = false ∧
    category_matches (fun _ => 8) (fun _ => 4) 0 0 (.finite 2)
      = Nat.testBit ((fun _ : Nat => 4) (0 + (Int.toNat ⌊(2 : Rat)⌋) / 8))
          ((Int.toNat ⌊(2 : Rat)⌋) % 8) := by
  have h := category_matches_spec (fun _ => 8) (fun _ => 4) 0 0
  exact ⟨h.2.1 9 (Or.inr (by norm_num)), h.2.2.1 2 (by norm_num) (by norm_num)⟩

/-- Modelled from the spec: the SPARSE8 import-time capacity check of
`fil::from_treelite` / `fil::init_sparse` for `sparse_node8`
(`cpp/src/fil/fil.cu`, not among the given sources; the given test file
only exercises it through `TreeliteThrowSparse8FilTest`). Per spec
§4.4/§7: importing into the compact 8-byte sparse encoding reports an
unsupported-model error if any tree would exceed that encoding's
node-count capacity or any node's feature id exceeds its feature-id
bit-width capacity; the check runs at import time before any kernel
launch, and on failure nothing is constructed. A tree is its list of
per-node feature ids. -/
def import_sparse8 (trees : List (List Nat))
    (node_capacity fid_capacity : Nat) : Except String (List (List Nat)) :=
  if trees.any (fun t => node_capacity < t.length
      || t.any (fun fid => fid_capacity ≤ fid)) then
    Except.error "conversion to sparse8 nodes failed"
  else
    Except.ok trees

/-- C8: importing into the compact 8-byte sparse encoding fails with an
unsupported-model error exactly when some tree exceeds the encoding's
node-count capacity or some feature id exceeds its feature-id capacity;
on failure no forest is produced (nothing partially constructed), and on
success the imported forest is the whole model — never a truncation. -/
theorem import_sparse8_spec (trees : List (List Nat))
    (node_capacity fid_capacity : Nat) :
    ((∃ t ∈ trees, node_capacity < t.length ∨ ∃ fid ∈ t, fid_capacity ≤ fid) ↔
      (∃ e, import_sparse8 trees node_capacity fid_capacity
        = Except.error e)) ∧
    (∀ f, import_sparse8 trees node_capacity fid_capacity = Except.ok f →
      f = trees) := by
  constructor
  · constructor
    · intro hex
      refine ⟨"conversion to sparse8 nodes failed", ?_⟩
      unfold import_sparse8
      rw [if_pos]
      rw [List.any_eq_true]
      obtain ⟨t, ht, hcase⟩ := hex
      refine ⟨t, ht, ?_⟩
      rw [Bool.or_eq_true, decide_eq_true_eq, List.any_eq_true]
      rcases hcase with h | ⟨fid, hfid, hcap⟩
      · exact Or.inl h
      · exact Or.inr ⟨fid, hfid, decide_eq_true hcap⟩
    · rintro ⟨e, he⟩
      unfold import_sparse8 at he
      by_cases hc : trees.any (fun t => node_capacity < t.length
          || t.any (fun fid => fid_capacity ≤ fid)) = true
      · rw [List.any_eq_true] at hc
        obtain ⟨t, ht, hcase⟩ := hc
        rw [Bool.or_eq_true, decide_eq_true_eq, List.any_eq_true] at hcase
        refine ⟨t, ht, ?_⟩
        rcases hcase with h | ⟨fid, hfid, hcap⟩
        · exact Or.inl h
        · exact Or.inr ⟨fid, hfid, of_decide_eq_true hcap⟩
      · rw [if_neg hc] at he
        exact absurd he (by simp)
  · intro f hf
    unfold import_sparse8 at hf
    by_cases hc : trees.any (fun t => node_capacity < t.length
        || t.any (fun fid => fid_capacity ≤ fid)) = true
    · rw [if_pos hc] at hf
      exact absurd hf (by simp)
    · rw [if_neg hc] at hf
      cases hf
      rfl

/-- Witness for `import_sparse8_spec`: a single 3-node tree against a
2-node capacity fails to import; a fitting model imports whole. -/
theorem import_sparse8_spec_witness :
    (∃ e, import_sparse8 [[0, 1, 0]] 2 16 = Except.error e) ∧
    (∀ f, import_sparse8 [[0, 1]] 2 16 = Except.ok f → f = [[0, 1]]) := by
  refine ⟨(import_sparse8_spec [[0, 1, 0]] 2 16).1.mp
      ⟨[0, 1, 0], by simp, Or.inl (by simp)⟩,
    (import_sparse8_spec [[0, 1]] 2 16).2⟩

/-- Embeds `fil::val_t`: a 4-byte union of `float f` and `int idx`, modelled as
a tagged sum (the code under study moves it around opaquely; float
payloads are float ranks). `val_t.f 0` models zero-initialization
(`{}`). -/
inductive val_t where
  | f (x : Int)
  | idx (i : Nat)
deriving DecidableEq

/-- The split-deciding fields of a FIL node, shared verbatim between a
dense node and the sparse node produced from it by
`dense2sparse_node`: the threshold-or-category-set union, the feature
id, the default direction, and the categorical marker. The traversal
condition (`tree_base::child_index`) is a function of exactly these
fields and the input row. -/
structure split_info where
  split : val_t
  fid : Nat
  def_left : Bool
  is_categorical : Bool
deriving DecidableEq

/-- The constructor payload common to `fil::dense_node` and
`fil::sparse_node8/16`: output union `w`, split fields, leaf marker. -/
structure node_payload where
  w : val_t
  info : split_info
  is_leaf : Bool
deriving DecidableEq

/-- A sparse node (`fil::sparse_node8` / `fil::sparse_node16`): the
payload plus the explicit left-child offset relative to the tree root;
the right child sits at `left_idx + 1`. -/
structure sparse_node where
  payload : node_payload
  left_idx : Nat
deriving DecidableEq

/-- Embeds `fil_node_t()`: the zero-initialized placeholder node pushed by
`dense2sparse_node` to reserve space for children. -/
def sparse_default : sparse_node :=
  ⟨⟨val_t.f 0, ⟨val_t.f 0, 0, false, false⟩, false⟩, 0⟩

/-- Embeds `std::vector<fil_node_t> sparse_nodes`, modelled as a size plus a
total index-to-node map. -/
structure node_vector where
  size : Nat
  nodes : Nat → sparse_node

/-- Embeds `sparse_nodes.push_back(n)`. -/
def nv_push (v : node_vector) (n : sparse_node) : node_vector :=
  ⟨v.size + 1, Function.update v.nodes v.size n⟩

/-- Embeds `sparse_nodes[i] = n`. -/
def nv_set (v : node_vector) (i : Nat) (n : sparse_node) : node_vector :=
  ⟨v.size, Function.update v.nodes i n⟩

/-- The leaf sparse node emitted by `dense2sparse_node`:
`fil_node_t(node.output<val_t>(), {}, node.fid(), node.def_left(),
node.is_leaf(), false, 0)`. -/
def d2s_leaf_node (node : node_payload) : sparse_node :=
  ⟨⟨node.w, ⟨val_t.f 0, node.info.fid, node.info.def_left, false⟩,
    node.is_leaf⟩, 0⟩

/-- The inner-node step of `dense2sparse_node`: reserve two child slots
(`push_back` twice), then store
`fil_node_t({}, node.split(), node.fid(), node.def_left(),
node.is_leaf(), node.is_categorical(), left_index - i_sparse_root)` at
`i_sparse`, where `left_index` is the vector size before the pushes. -/
def d2s_inner_step (sn : node_vector) (i_root i_sparse : Nat)
    (node : node_payload) : node_vector :=
  nv_set (nv_push (nv_push sn sparse_default) sparse_default) i_sparse
    ⟨⟨val_t.f 0, node.info, node.is_leaf⟩, sn.size - i_root⟩

/-- Embeds `BasePredictSparseFilTest::dense2sparse_node`: recursively convert
the dense subtree rooted at array index `i_dense` (children at
`2*i_dense+1` and `2*i_dense+2`) into sparse nodes, writing the node for
`i_dense` at `i_sparse` and appending the children. The C++ recursion
terminates because every path of the dense tree reaches a leaf; the
embedding makes that a fuel parameter and returns `none` on
exhaustion. -/
def dense2sparse_node (dense_root : Nat → node_payload) :
    Nat → Nat → Nat → Nat → node_vector → Option node_vector
  | 0, _, _, _, _ => none
  | fuel + 1, i_dense, i_root, i_sparse, sn =>
    if (dense_root i_dense).is_leaf then
      some (nv_set sn i_sparse (d2s_leaf_node (dense_root i_dense)))
    else
      match dense2sparse_node dense_root fuel (2 * i_dense + 1) i_root sn.size
          (d2s_inner_step sn i_root i_sparse (dense_root i_dense)) with
      | none => none
      | some sn3 =>
        dense2sparse_node dense_root fuel (2 * i_dense + 2) i_root
          (sn.size + 1) sn3

/-- Embeds `BasePredictSparseFilTest::dense2sparse_tree`: push a placeholder
root, convert the tree into it, and record the root index. -/
def dense2sparse_tree (dense_root : Nat → node_payload) (fuel : Nat)
    (sn : node_vector) : Option (node_vector × Nat) :=
  (dense2sparse_node dense_root fuel 0 sn.size sn.size
    (nv_push sn sparse_default)).map (fun out => (out, sn.size))

/-- Embeds `BasePredictSparseFilTest::dense2sparse`: convert every tree of the
forest in order, collecting the root indices. -/
def dense2sparse_forest : List (Nat → node_payload) → Nat → node_vector →
    Option (node_vector × List Nat)
  | [], _, sn => some (sn, [])
  | t :: ts, fuel, sn =>
    (dense2sparse_tree t fuel sn).bind (fun p =>
      (dense2sparse_forest ts fuel p.1).map (fun q => (q.1, p.2 :: q.2)))

/-- Embeds `BaseFilTest::infer_one_tree` over a dense tree: start at index 0;
at a leaf return the typed output `w`; otherwise descend to
`2*curr + 1 + cond` where `cond` is the traversal condition
(`tree_base::child_index`) evaluated on the node's split fields for the
fixed input row. `cond = false` selects the left child `2*curr + 1`,
`cond = true` the right child `2*curr + 2`. -/
def infer_one_tree_dense (root : Nat → node_payload)
    (cond : split_info → Bool) : Nat → Nat → Option val_t
  | 0, _ => none
  | fuel + 1, curr =>
    if (root curr).is_leaf then some (root curr).w
    else
      infer_one_tree_dense root cond fuel
        (2 * curr + 1 + (if cond (root curr).info then 1 else 0))

/-- Per-tree traversal of a sparse forest: node indices are relative to
the tree root; a non-leaf node's left child sits at its stored
`left_idx` offset and the right child at `left_idx + 1`. -/
def infer_one_tree_sparse (sn : node_vector) (root : Nat)
    (cond : split_info → Bool) : Nat → Nat → Option val_t
  | 0, _ => none
  | fuel + 1, curr =>
    if (sn.nodes (root + curr)).payload.is_leaf then
      some (sn.nodes (root + curr)).payload.w
    else
      infer_one_tree_sparse sn root cond fuel
        ((sn.nodes (root + curr)).left_idx +
          (if cond (sn.nodes (root + curr)).payload.info then 1 else 0))

theorem d2s_inner_step_size (sn : node_vector) (i_root i_sparse : Nat)
    (node : node_payload) :
    (d2s_inner_step sn i_root i_sparse node).size = sn.size + 2 := rfl

theorem d2s_inner_step_nodes_other (sn : node_vector) (i_root i_sparse : Nat)
    (node : node_payload) (j : Nat) (hne : j ≠ i_sparse) (h1 : j ≠ sn.size)
    (h2 : j ≠ sn.size + 1) :
    (d2s_inner_step sn i_root i_sparse node).nodes j = sn.nodes j := by
  simp only [d2s_inner_step, nv_set, nv_push, Function.update_apply]
  rw [if_neg hne, if_neg h2, if_neg h1]

theorem d2s_inner_step_nodes_self (sn : node_vector) (i_root i_sparse : Nat)
    (node : node_payload) :
    (d2s_inner_step sn i_root i_sparse node).nodes i_sparse
      = ⟨⟨val_t.f 0, node.info, node.is_leaf⟩, sn.size - i_root⟩ := by
  simp [d2s_inner_step, nv_set, nv_push, Function.update_apply]

/-- Embeds `dense2sparse_node` only writes index `i_sparse` and freshly
appended indices: the vector never shrinks and every other existing
index is untouched. -/
theorem dense2sparse_node_footprint (dense_root : Nat → node_payload) :
    ∀ fuel i_dense i_root i_sparse sn out,
    dense2sparse_node dense_root fuel i_dense i_root i_sparse sn = some out →
    sn.size ≤ out.size ∧
    ∀ j, j < sn.size → j ≠ i_sparse → out.nodes j = sn.nodes j := by
  intro fuel
  induction fuel with
  | zero =>
    intro i_dense i_root i_sparse sn out h
    exact absurd h (by simp [dense2sparse_node])
  | succ fuel ih =>
    intro i_dense i_root i_sparse sn out h
    rw [dense2sparse_node] at h
    by_cases hleaf : (dense_root i_dense).is_leaf
    · rw [if_pos hleaf] at h
      injection h with h
      subst h
      refine ⟨le_refl _, ?_⟩
      intro j hj hne
      simp [nv_set, Function.update_noteq hne]
    · rw [if_neg hleaf] at h
      rcases hrec1 : dense2sparse_node dense_root fuel (2 * i_dense + 1) i_root
          sn.size (d2s_inner_step sn i_root i_sparse (dense_root i_dense)) with
        _ | sn3
      · rw [hrec1] at h
        exact absurd h (by simp)
      · rw [hrec1] at h
        obtain ⟨hsz3, hpr3⟩ := ih _ _ _ _ _ hrec1
        obtain ⟨hszo, hpro⟩ := ih _ _ _ _ _ h
        have hstep : (d2s_inner_step sn i_root i_sparse
            (dense_root i_dense)).size = sn.size + 2 := rfl
        rw [hstep] at hsz3 hpr3
        refine ⟨by omega, ?_⟩
        intro j hj hne
        have h1 : out.nodes j = sn3.nodes j := hpro j (by omega) (by omega)
        have h2 : sn3.nodes j = (d2s_inner_step sn i_root i_sparse
            (dense_root i_dense)).nodes j := hpr3 j (by omega) (by omega)
        have h3 : (d2s_inner_step sn i_root i_sparse
            (dense_root i_dense)).nodes j = sn.nodes j :=
          d2s_inner_step_nodes_other sn i_root i_sparse (dense_root i_dense) j
            hne (by omega) (by omega)
        rw [h1, h2, h3]

/-- Core induction for C1: converting the dense subtree at `i_dense`
into slot `i_sparse` produces sparse nodes whose traversal — in any
vector that agrees with the conversion result on the slot and on the
appended indices — returns exactly what dense traversal returns, for
every traversal condition (every input row). -/
theorem dense2sparse_node_infer (dense_root : Nat → node_payload)
    (cond : split_info → Bool) :
    ∀ fuel i_dense i_root i_sparse sn out,
    i_root ≤ i_sparse → i_sparse < sn.size →
    dense2sparse_node dense_root fuel i_dense i_root i_sparse sn = some out →
    ∀ sn2 : node_vector,
      (∀ j, j = i_sparse ∨ (sn.size ≤ j ∧ j < out.size) →
        sn2.nodes j = out.nodes j) →
      infer_one_tree_sparse sn2 i_root cond fuel (i_sparse - i_root)
        = infer_one_tree_dense dense_root cond fuel i_dense := by
  intro fuel
  induction fuel with
  | zero =>
    intro i_dense i_root i_sparse sn out hri hsz h
    exact absurd h (by simp [dense2sparse_node])
  | succ fuel ih =>
    intro i_dense i_root i_sparse sn out hri hsz h sn2 hagree
    rw [dense2sparse_node] at h
    have hcurr : i_root + (i_sparse - i_root) = i_sparse := by omega
    by_cases hleaf : (dense_root i_dense).is_leaf
    · rw [if_pos hleaf] at h
      injection h with h
      subst h
      have hn : sn2.nodes (i_root + (i_sparse - i_root))
          = d2s_leaf_node (dense_root i_dense) := by
        rw [hcurr, hagree i_sparse (Or.inl rfl)]
        simp [nv_set, d2s_leaf_node]
      rw [infer_one_tree_sparse, infer_one_tree_dense, hn]
      simp [d2s_leaf_node, hleaf]
    · rw [if_neg hleaf] at h
      rcases hrec1 : dense2sparse_node dense_root fuel (2 * i_dense + 1) i_root
          sn.size (d2s_inner_step sn i_root i_sparse (dense_root i_dense)) with
        _ | sn3
      · rw [hrec1] at h
        exact absurd h (by simp)
      · rw [hrec1] at h
        obtain ⟨hsz3, hpr3⟩ :=
          dense2sparse_node_footprint dense_root fuel _ _ _ _ _ hrec1
        obtain ⟨hszo, hpro⟩ :=
          dense2sparse_node_footprint dense_root fuel _ _ _ _ _ h
        rw [d2s_inner_step_size] at hsz3
        have hout_sp : out.nodes i_sparse
            = ⟨⟨val_t.f 0, (dense_root i_dense).info,
                (dense_root i_dense).is_leaf⟩, sn.size - i_root⟩ := by
          have e1 : out.nodes i_sparse = sn3.nodes i_sparse :=
            hpro i_sparse (by omega) (by omega)
          have e2 : sn3.nodes i_sparse = (d2s_inner_step sn i_root i_sparse
              (dense_root i_dense)).nodes i_sparse :=
            hpr3 i_sparse (by rw [d2s_inner_step_size]; omega) (by omega)
          rw [e1, e2, d2s_inner_step_nodes_self]
        have hn2 : sn2.nodes (i_root + (i_sparse - i_root))
            = ⟨⟨val_t.f 0, (dense_root i_dense).info,
                (dense_root i_dense).is_leaf⟩, sn.size - i_root⟩ := by
          rw [hcurr, hagree i_sparse (Or.inl rfl), hout_sp]
        rw [infer_one_tree_sparse, infer_one_tree_dense, hn2]
        have hpleaf : (⟨⟨val_t.f 0, (dense_root i_dense).info,
            (dense_root i_dense).is_leaf⟩,
            sn.size - i_root⟩ : sparse_node).payload.is_leaf
            = (dense_root i_dense).is_leaf := rfl
        rw [hpleaf, if_neg hleaf, if_neg hleaf]
        have hpinfo : (⟨⟨val_t.f 0, (dense_root i_dense).info,
            (dense_root i_dense).is_leaf⟩,
            sn.size - i_root⟩ : sparse_node).payload.info
            = (dense_root i_dense).info := rfl
        have hpleft : (⟨⟨val_t.f 0, (dense_root i_dense).info,
            (dense_root i_dense).is_leaf⟩,
            sn.size - i_root⟩ : sparse_node).left_idx = sn.size - i_root := rfl
        rw [hpinfo, hpleft]
        by_cases hc : cond (dense_root i_dense).info
        · -- right child: offset + 1 in the sparse tree, 2*i+2 in the dense
          rw [if_pos hc]
          have harith : sn.size - i_root + 1 = (sn.size + 1) - i_root := by
            omega
          have harith2 : 2 * i_dense + 1 + 1 = 2 * i_dense + 2 := by omega
          rw [harith, harith2]
          refine ih (2 * i_dense + 2) i_root (sn.size + 1) sn3 out
            (by omega) (by omega) h sn2 ?_
          intro j hj
          rcases hj with hj | ⟨hj1, hj2⟩
          · subst hj
            exact hagree _ (Or.inr ⟨by omega, by omega⟩)
          · exact hagree _ (Or.inr ⟨by omega, hj2⟩)
        · -- left child: the stored offset in the sparse tree, 2*i+1 dense
          rw [if_neg hc]
          have hagree3 : ∀ j, j = sn.size ∨
              ((d2s_inner_step sn i_root i_sparse
                (dense_root i_dense)).size ≤ j ∧ j < sn3.size) →
              sn2.nodes j = sn3.nodes j := by
            intro j hj
            rw [d2s_inner_step_size] at hj
            have hjout : sn2.nodes j = out.nodes j := by
              rcases hj with hj | ⟨hj1, hj2⟩
              · subst hj
                exact hagree _ (Or.inr ⟨le_refl _, by omega⟩)
              · exact hagree _ (Or.inr ⟨by omega, by omega⟩)
            have houtsn3 : out.nodes j = sn3.nodes j := by
              rcases hj with hj | ⟨hj1, hj2⟩
              · subst hj
                exact hpro _ (by omega) (by omega)
              · exact hpro _ (by omega) (by omega)
            rw [hjout, houtsn3]
          have := ih (2 * i_dense + 1) i_root sn.size
            (d2s_inner_step sn i_root i_sparse (dense_root i_dense)) sn3
            (by omega) (by rw [d2s_inner_step_size]; omega) hrec1 sn2 hagree3
          simpa using this

theorem dense2sparse_tree_footprint (dense_root : Nat → node_payload)
    (fuel : Nat) (sn out : node_vector) (root : Nat)
    (h : dense2sparse_tree dense_root fuel sn = some (out, root)) :
    root = sn.size ∧ sn.size < out.size ∧
    ∀ j, j < sn.size → out.nodes j = sn.nodes j := by
  unfold dense2sparse_tree at h
  rcases hrec : dense2sparse_node dense_root fuel 0 sn.size sn.size
      (nv_push sn sparse_default) with _ | out0
  · rw [hrec] at h
    exact absurd h (by simp)
  · rw [hrec, Option.map_some'] at h
    injection h with h
    injection h with h1 h2
    obtain ⟨hsz, hpr⟩ :=
      dense2sparse_node_footprint dense_root fuel _ _ _ _ _ hrec
    have hpush : (nv_push sn sparse_default).size = sn.size + 1 := rfl
    rw [hpush] at hsz
    subst h1
    refine ⟨h2.symm, by omega, ?_⟩
    intro j hj
    have e1 : out0.nodes j = (nv_push sn sparse_default).nodes j :=
      hpr j (by rw [hpush]; omega) (by omega)
    have e2 : (nv_push sn sparse_default).nodes j = sn.nodes j := by
      simp only [nv_push, Function.update_apply]
      rw [if_neg (by omega : ¬ j = sn.size)]
    rw [e1, e2]

theorem dense2sparse_tree_infer (dense_root : Nat → node_payload)
    (cond : split_info → Bool) (fuel : Nat) (sn out : node_vector)
    (root : Nat)
    (h : dense2sparse_tree dense_root fuel sn = some (out, root)) :
    ∀ sn2 : node_vector,
      (∀ j, sn.size ≤ j → j < out.size → sn2.nodes j = out.nodes j) →
      infer_one_tree_sparse sn2 root cond fuel 0
        = infer_one_tree_dense dense_root cond fuel 0 := by
  intro sn2 hagree
  unfold dense2sparse_tree at h
  rcases hrec : dense2sparse_node dense_root fuel 0 sn.size sn.size
      (nv_push sn sparse_default) with _ | out0
  · rw [hrec] at h
    exact absurd h (by simp)
  · rw [hrec, Option.map_some'] at h
    injection h with h
    injection h with h1 h2
    subst h1
    subst h2
    obtain ⟨hsz, _⟩ :=
      dense2sparse_node_footprint dense_root fuel _ _ _ _ _ hrec
    have hpush : (nv_push sn sparse_default).size = sn.size + 1 := rfl
    rw [hpush] at hsz
    have hmain := dense2sparse_node_infer dense_root cond fuel 0 sn.size
      sn.size (nv_push sn sparse_default) out0 (le_refl _)
      (by rw [hpush]; omega) hrec sn2 ?_
    · have hzero : sn.size - sn.size = 0 := by omega
      rw [hzero] at hmain
      exact hmain
    · intro j hj
      rcases hj with hj | ⟨hj1, hj2⟩
      · subst hj
        exact hagree _ (le_refl _) (by omega)
      · rw [hpush] at hj1
        exact hagree _ (by omega) hj2

theorem dense2sparse_forest_footprint :
    ∀ (trees : List (Nat → node_payload)) (fuel : Nat) (sn out : node_vector)
      (roots : List Nat),
    dense2sparse_forest trees fuel sn = some (out, roots) →
    sn.size ≤ out.size ∧ ∀ j, j < sn.size → out.nodes j = sn.nodes j := by
  intro trees
  induction trees with
  | nil =>
    intro fuel sn out roots h
    rw [dense2sparse_forest] at h
    injection h with h
    injection h with h1 h2
    subst h1
    exact ⟨le_refl _, fun j _ => rfl⟩
  | cons tr ts ih =>
    intro fuel sn out roots h
    rw [dense2sparse_forest] at h
    rcases htree : dense2sparse_tree tr fuel sn with _ | ⟨sn1, root⟩
    · rw [htree] at h
      exact absurd h (by simp)
    · rw [htree, Option.some_bind'] at h
      rcases hrest : dense2sparse_forest ts fuel sn1 with _ | ⟨out1, roots1⟩
      · rw [hrest] at h
        exact absurd h (by simp)
      · rw [hrest, Option.map_some'] at h
        injection h with h
        injection h with h1 h2
        have h1' : out1 = out := h1
        subst h1'
        obtain ⟨_, hts, htp⟩ :=
          dense2sparse_tree_footprint tr fuel sn sn1 root htree
        obtain ⟨hrs, hrp⟩ := ih fuel sn1 out1 roots1 hrest
        refine ⟨by omega, ?_⟩
        intro j hj
        rw [hrp j (by omega), htp j hj]

/-- C1: dense-to-sparse conversion preserves per-tree inference. For
every dense forest successfully converted by `dense2sparse_forest`
(the `dense2sparse` routine run over each tree), every tree of the
forest, and every traversal condition — i.e. every input row — walking
the converted sparse tree from its recorded root, taking the left child
at the stored offset and the right child at `offset + 1`, returns
exactly the same leaf output as walking the dense tree with children at
`2i+1` and `2i+2`. Consequently the dense and sparse encodings of the
same logical forest feed identical per-tree leaf values into the
identical reduction and output transform, so class and probability
predictions agree. -/
theorem dense2sparse_forest_infer (cond : split_info → Bool) :
    ∀ (trees : List (Nat → node_payload)) (fuel : Nat) (sn out : node_vector)
      (roots : List Nat),
    dense2sparse_forest trees fuel sn = some (out, roots) →
    roots.length = trees.length ∧
    ∀ t, t < trees.length →
      infer_one_tree_sparse out (roots.getD t 0) cond fuel 0
        = infer_one_tree_dense
            (trees.getD t (fun _ => ⟨val_t.f 0, ⟨val_t.f 0, 0, false, false⟩,
              true⟩)) cond fuel 0 := by
  intro trees
  induction trees with
  | nil =>
    intro fuel sn out roots h
    rw [dense2sparse_forest] at h
    injection h with h
    injection h with h1 h2
    subst h2
    exact ⟨rfl, fun t ht => absurd ht (by simp)⟩
  | cons tr ts ih =>
    intro fuel sn out roots h
    rw [dense2sparse_forest] at h
    rcases htree : dense2sparse_tree tr fuel sn with _ | ⟨sn1, root⟩
    · rw [htree] at h
      exact absurd h (by simp)
    · rw [htree, Option.some_bind'] at h
      rcases hrest : dense2sparse_forest ts fuel sn1 with _ | ⟨out1, roots1⟩
      · rw [hrest] at h
        exact absurd h (by simp)
      · rw [hrest, Option.map_some'] at h
        injection h with h
        injection h with h1 h2
        have h1' : out1 = out := h1
        have h2' : root :: roots1 = roots := h2
        subst h1'
        subst h2'
        obtain ⟨hlen, hts⟩ := ih fuel sn1 out1 roots1 hrest
        obtain ⟨hfs, hfp⟩ := dense2sparse_forest_footprint ts fuel sn1 out1
          roots1 hrest
        refine ⟨by simp [hlen], ?_⟩
        intro t ht
        cases t with
        | zero =>
          simp only [List.getD_cons_zero]
          exact dense2sparse_tree_infer tr cond fuel sn sn1 root htree out1
            (fun j _ hj2 => hfp j hj2)
        | succ t =>
          simp only [List.getD_cons_succ]
          exact hts t (by simpa using ht)

/-- The demonstration forest for the C1 witness: one single-leaf tree
with output `42`. -/
def c1_demo_tree : Nat → node_payload :=
  fun _ => ⟨val_t.f 42, ⟨val_t.f 0, 0, false, false⟩, true⟩

/-- The sparse vector `dense2sparse_forest` produces for
`[c1_demo_tree]` from an empty vector with fuel 1. -/
def c1_demo_out : node_vector :=
  ⟨1, Function.update (Function.update (fun _ => sparse_default) 0
    sparse_default) 0 (d2s_leaf_node (c1_demo_tree 0))⟩

/-- Witness for `dense2sparse_forest_infer`: converting the
demonstration forest and walking tree 0 gives the dense answer. -/
theorem dense2sparse_forest_infer_witness :
    infer_one_tree_sparse c1_demo_out 0 (fun _ => false) 1 0
      = infer_one_tree_dense c1_demo_tree (fun _ => false) 1 0 := by
  have h := dense2sparse_forest_infer (fun _ => false) [c1_demo_tree] 1
    ⟨0, fun _ => sparse_default⟩ c1_demo_out [0] rfl
  exact h.2 0 (by simp)

end CumlFil
